import Mathlib

/-!
Verification of the psu-capstone HTM core against its specification.

This file shallowly embeds the SDR data structure
(`Project/src/main/EncoderLayer/Sdr.py`), the Spatial Pooler
(`src/psu_capstone/htm/spatial_pooler.py`) and the Temporal Memory
(`src/psu_capstone/htm/temporal_memory.py`) in Lean and proves or refutes
the specification claims about them.

Modelling conventions:
* Python floats are modelled as rationals (`ℚ`); the constants involved
  (0.01, 0.21, 0.5, ...) and the claim-level inputs are exactly
  representable, so no rounding issues arise for the claims below.
* Python exceptions raised by `nta_check` / `nta_assert`
  (`HtmException` / `HtmAssertionError`, the concrete forms of the
  ContractViolation taxonomy of the spec) become an explicit error value.
  Since an exception propagates while the mutated object survives, each
  mutating operation returns the pair of an `Except` result and the final
  state.
* `random.Random(seed).sample(pop, k)` is modelled by an explicit sampler
  function argument; theorems that depend on the sample quantify over all
  samplers whose output is a valid sample (`SampValid`), which is the
  library contract of `random.sample`.
-/

namespace PsuCapstone

/-- Error raised by the LogLayer helpers: `nta_assert` raises
`HtmAssertionError`, `nta_check` raises `HtmException`; both belong to the
ContractViolation taxonomy of the spec. -/
inductive HtmErr where
  | assertFailed (msg : String)
  | checkFailed (msg : String)
deriving Repr, DecidableEq

/-- State of `SDR` from `Project/src/main/EncoderLayer/Sdr.py`: dimensions,
flattened size, the three representation buffers and their validity flags.
Callback registries are omitted: no claim observes them and callbacks do
not change the value of the SDR. -/
structure SDRState where
  dims : List Nat
  size : Nat
  dense : List Nat
  sparse : List Nat
  coords : List (List Nat)
  dense_valid : Bool
  sparse_valid : Bool
  coordinates_valid : Bool
deriving Repr, DecidableEq

/-- `SDR.__init__(dimensions)` after its `nta_check` on nonemptiness has
passed: the all-zero SDR with the dense buffer authoritative. -/
def sdr0 (dimensions : List Nat) : SDRState :=
  { dims := dimensions
    size := dimensions.prod
    dense := List.replicate dimensions.prod 0
    sparse := []
    coords := dimensions.map (fun _ => [])
    dense_valid := true
    sparse_valid := false
    coordinates_valid := false }

/-- `SDR.__init__`: checks that at least one dimension is given. -/
def sdrNew (dimensions : List Nat) : Except HtmErr SDRState :=
  if dimensions.length > 0 then .ok (sdr0 dimensions)
  else .error (.checkFailed "SDR must have at least one dimension.")

/-- The adjacent-pairs comparison performed by the sortedness
`nta_assert` of `set_sparse_inplace`. -/
def adjSortedB : List Nat → Bool
  | [] => true
  | [_] => true
  | a :: b :: rest => (a ≤ b) && adjSortedB (b :: rest)

/-- The adjacent-duplicates loop of `set_sparse_inplace` (`previous` is
always the immediately preceding element). -/
def adjNodupB : List Nat → Bool
  | [] => true
  | [_] => true
  | a :: b :: rest => (a ≠ b) && adjNodupB (b :: rest)

/-- `SDR.set_sparse_inplace`: asserts the sparse buffer is sorted, its
last element (if any) is in bounds and no adjacent duplicates occur, then
marks the sparse buffer authoritative.  On an assertion failure the
already-replaced sparse buffer stays, as in Python. -/
def set_sparse_inplace (st : SDRState) : Except HtmErr Unit × SDRState :=
  if ¬ (adjSortedB st.sparse = true) then
    (.error (.assertFailed "Sparse data must be sorted!"), st)
  else if st.sparse ≠ [] ∧ ¬ (st.sparse.getLastD 0 < st.size) then
    (.error (.assertFailed "Sparse index out of bounds!"), st)
  else if ¬ (adjNodupB st.sparse = true) then
    (.error (.assertFailed "Sparse data must not contain duplicates!"), st)
  else
    (.ok (), { st with dense_valid := false, sparse_valid := true,
                       coordinates_valid := false })

/-- `SDR.set_sparse`: replace the sparse buffer, then validate via
`set_sparse_inplace`. -/
def set_sparse (st : SDRState) (l : List Nat) : Except HtmErr Unit × SDRState :=
  set_sparse_inplace { st with sparse := l }

/-- `SDR.set_dense_inplace`: asserts the dense buffer has the right
length, then marks the dense buffer authoritative. -/
def set_dense_inplace (st : SDRState) : Except HtmErr Unit × SDRState :=
  if st.dense.length = st.size then
    (.ok (), { st with dense_valid := true, sparse_valid := false,
                       coordinates_valid := false })
  else
    (.error (.assertFailed "Dense buffer size does not match SDR size."), st)

/-- `SDR.set_dense`: validates the length, replaces the dense buffer and
delegates to `set_dense_inplace`. -/
def set_dense (st : SDRState) (l : List Nat) : Except HtmErr Unit × SDRState :=
  if l.length = st.size then set_dense_inplace { st with dense := l }
  else (.error (.assertFailed "Input dense array size does not match SDR size."), st)

/-- Flattened index of the `idx`-th active coordinate tuple
(the reversed mixed-radix accumulation inside `get_sparse`). -/
def coordFlat (dims : List Nat) (coords : List (List Nat)) (idx : Nat) : Nat :=
  (((dims.zip coords).reverse).foldl
    (fun acc p => (acc.1 + (p.2.getD idx 0) * acc.2, acc.2 * p.1)) (0, 1)).1

/-- The dense-to-sparse enumeration of `get_sparse`: indices whose dense
value is nonzero, in increasing index order. -/
def denseToSparse (d : List Nat) : List Nat :=
  (List.range d.length).filter (fun i => d.getD i 0 ≠ 0)

/-- `SDR.get_sparse`: return the sparse view, rematerialising it from the
dense or coordinate cache when stale, and sorting it
(`self._sparse.sort(key=int)`). -/
def get_sparse (st : SDRState) : List Nat × SDRState :=
  if st.sparse_valid then (st.sparse, st)
  else
    let raw : List Nat :=
      if st.dense_valid then denseToSparse st.dense
      else if st.coordinates_valid then
        (List.range (st.coords.headD []).length).map (coordFlat st.dims st.coords)
      else []
    let s := raw.mergeSort
    (s, { st with sparse := s, sparse_valid := true })

/-- `SDR.get_dense`: return the dense view, materialising it from the
sparse view (itself rematerialised first when needed). -/
def get_dense (st : SDRState) : List Nat × SDRState :=
  if st.dense_valid then (st.dense, st)
  else
    let st1 := if st.sparse_valid then st else (get_sparse st).2
    let d := st1.sparse.foldl (fun acc i => acc.set i 1)
      (List.replicate st1.size 0)
    (d, { st1 with dense := d, dense_valid := true })

/-- `SDR.get_sum`: number of active bits via the sparse view. -/
def get_sum (st : SDRState) : Nat × SDRState :=
  ((get_sparse st).1.length, (get_sparse st).2)

/-- `SDR.get_sparsity`: active fraction of the flattened size. -/
def get_sparsity (st : SDRState) : ℚ × SDRState :=
  (((get_sparse st).1.length : ℚ) / (st.size : ℚ), (get_sparse st).2)

/-- The observable active-bit content of an SDR: its dense view.  Reading
through `get_dense` resolves whichever cache is authoritative. -/
def denseOf (st : SDRState) : List Nat := (get_dense st).1

/-- Python 3 `round` (round-half-to-even) on an exact rational value. -/
def pyRound (q : ℚ) : ℤ :=
  let f := ⌊q⌋
  let r := q - (f : ℚ)
  if r < 1/2 then f
  else if 1/2 < r then f + 1
  else if f % 2 = 0 then f else f + 1

/-- Contract of `random.Random(seed).sample(pop, k)`: the result has `k`
elements, no repeats, and is drawn from the population. -/
def SampValid (pop : List Nat) (k : Nat) (res : List Nat) : Prop :=
  res.length = k ∧ res.Nodup ∧ ∀ x ∈ res, x ∈ pop

/-- `SDR.add_noise(fraction_noise)`: asserts the fraction is in `[0,1]`,
checks `(1 + fraction) * sparsity ≤ 1`, then moves
`round(fraction * sum)` bits from active to inactive positions.  `samp`
stands for `rng.sample`. -/
def add_noise (samp : List Nat → Nat → List Nat) (st : SDRState) (f : ℚ) :
    Except HtmErr Unit × SDRState :=
  if ¬ (0 ≤ f ∧ f ≤ 1) then
    (.error (.assertFailed "Noise fraction must be within [0, 1]."), st)
  else
    let p := get_sparsity st
    if ¬ ((1 + f) * p.1 ≤ 1) then
      (.error (.checkFailed "Noise would exceed SDR capacity."), p.2)
    else
      let s := get_sum p.2
      let k := (pyRound (f * (s.1 : ℚ))).toNat
      if k = 0 then (.ok (), s.2)
      else
        let sv := get_sparse s.2
        if ¬ (k ≤ sv.1.length) then
          (.error (.assertFailed "Not enough active bits to turn off."), sv.2)
        else
          let turn_off := samp sv.1 k
          let dn := get_dense sv.2
          let off_population :=
            (List.range sv.2.size).filter (fun i => dn.1.getD i 0 = 0)
          if ¬ (k ≤ off_population.length) then
            (.error (.assertFailed "Not enough inactive bits to turn on."), dn.2)
          else
            let turn_on := samp off_population k
            let d1 := turn_on.foldl (fun acc i => acc.set i 1) dn.1
            let d2 := turn_off.foldl (fun acc i => acc.set i 0) d1
            set_dense_inplace { dn.2 with dense := d2 }

/-- `SDR.kill_cells(fraction, seed)`: checks the fraction is in `[0,1]`,
computes `nkill = round(size * fraction)`, samples `nkill` indices from
`range(size)` (the whole index space) and zeroes them.  `samp` stands for
`random.Random(seed).sample`. -/
def kill_cells (samp : List Nat → Nat → List Nat) (st : SDRState) (f : ℚ) :
    Except HtmErr Unit × SDRState :=
  if ¬ (0 ≤ f ∧ f ≤ 1) then
    (.error (.checkFailed "Kill fraction must be within [0, 1]."), st)
  else if (pyRound ((st.size : ℚ) * f)).toNat = 0 then (.ok (), st)
  else
    set_dense (get_dense st).2
      ((samp (List.range (get_dense st).2.size)
          ((pyRound ((st.size : ℚ) * f)).toNat)).foldl
        (fun acc i => acc.set i 0) (get_dense st).1)

/-! ### List helper lemmas -/

theorem adj_iff_chain (l : List Nat) :
    (adjSortedB l = true ∧ adjNodupB l = true) ↔ List.Chain' (· < ·) l := by
  induction l with
  | nil => simp [adjSortedB, adjNodupB]
  | cons a t ih =>
    cases t with
    | nil => simp [adjSortedB, adjNodupB]
    | cons b t2 =>
      simp only [adjSortedB, adjNodupB, Bool.and_eq_true, decide_eq_true_eq,
        List.chain'_cons, ← ih] at *
      constructor
      · rintro ⟨⟨h1, h2⟩, h3, h4⟩
        exact ⟨lt_of_le_of_ne h1 h3, h2, h4⟩
      · rintro ⟨h1, h2, h3⟩
        exact ⟨⟨le_of_lt h1, h2⟩, ne_of_lt h1, h3⟩

theorem sorted_iff_adj (l : List Nat) :
    (adjSortedB l = true ∧ adjNodupB l = true) ↔ List.Sorted (· < ·) l := by
  rw [adj_iff_chain, List.chain'_iff_pairwise, List.Sorted]

theorem sorted_last_bound (n : Nat) (l : List Nat) (hc : List.Sorted (· < ·) l) :
    (l = [] ∨ l.getLastD 0 < n) ↔ ∀ x ∈ l, x < n := by
  induction l with
  | nil => simp
  | cons a t ih =>
    have hc' : List.Sorted (· < ·) t := hc.of_cons
    have hmem : ∀ x ∈ t, a < x := fun x hx => (List.pairwise_cons.mp hc).1 x hx
    cases t with
    | nil => simp [List.getLastD]
    | cons b t2 =>
      have hgl : (a :: b :: t2).getLastD 0 = (b :: t2).getLastD 0 := by
        rw [List.getLastD_eq_getLast?, List.getLastD_eq_getLast?,
          List.getLast?_cons_cons]
      have hih := ih hc'
      constructor
      · intro h
        have hlast : (b :: t2).getLastD 0 < n := by
          rcases h with h | h
          · exact absurd h (by simp)
          · rw [hgl] at h; exact h
        have ht : ∀ x ∈ b :: t2, x < n := hih.mp (Or.inr hlast)
        intro x hx
        rcases List.mem_cons.mp hx with rfl | hx
        · exact lt_trans (hmem b (List.mem_cons_self b t2))
            (ht b (List.mem_cons_self b t2))
        · exact ht x hx
      · intro h
        refine Or.inr ?_
        rw [hgl]
        rcases hih.mpr (fun x hx => h x (List.mem_cons_of_mem a hx)) with h0 | h0
        · exact absurd h0 (by simp)
        · exact h0

theorem foldl_set_length (v : Nat) (ks : List Nat) (l : List Nat) :
    (ks.foldl (fun acc i => acc.set i v) l).length = l.length := by
  induction ks generalizing l with
  | nil => rfl
  | cons k ks ih => simp [ih]

theorem foldl_set_getD (v : Nat) (ks : List Nat) (l : List Nat) (j : Nat) :
    (ks.foldl (fun acc i => acc.set i v) l).getD j 0 =
      if j ∈ ks ∧ j < l.length then v else l.getD j 0 := by
  induction ks generalizing l with
  | nil => simp
  | cons k ks ih =>
    rw [List.foldl_cons, ih, List.length_set]
    by_cases hlen : j < l.length
    · by_cases hmem : j ∈ ks
      · rw [if_pos ⟨hmem, hlen⟩, if_pos ⟨List.mem_cons_of_mem k hmem, hlen⟩]
      · rw [if_neg (by tauto)]
        by_cases hjk : j = k
        · subst hjk
          rw [if_pos ⟨List.mem_cons_self j ks, hlen⟩]
          rw [List.getD_eq_getElem?_getD, List.getElem?_set_self',
            List.getElem?_eq_getElem hlen]
          simp
        · rw [if_neg (fun hc => by
            rcases List.mem_cons.mp hc.1 with h | h
            · exact hjk h
            · exact hmem h)]
          rw [List.getD_eq_getElem?_getD, List.getElem?_set_ne (Ne.symm hjk),
            ← List.getD_eq_getElem?_getD]
    · rw [if_neg (by tauto), if_neg (by tauto)]
      rw [List.getD_eq_default _ _ (by simpa using Nat.le_of_not_lt hlen),
        List.getD_eq_default _ _ (Nat.le_of_not_lt hlen)]

theorem mem_denseToSparse (d : List Nat) (i : Nat) :
    i ∈ denseToSparse d ↔ i < d.length ∧ d.getD i 0 ≠ 0 := by
  simp [denseToSparse, List.mem_filter, List.mem_range]

theorem sorted_denseToSparse (d : List Nat) :
    List.Sorted (· < ·) (denseToSparse d) :=
  List.Pairwise.filter _ (List.pairwise_lt_range d.length)

theorem mergeSort_sorted_lt (l : List Nat) (h : List.Sorted (· < ·) l) :
    l.mergeSort = l :=
  List.mergeSort_eq_self (h.imp le_of_lt)

/-! ### Cache lemmas -/

theorem get_sparse_size (st : SDRState) : (get_sparse st).2.size = st.size := by
  unfold get_sparse
  by_cases h : st.sparse_valid <;> simp [h]

theorem denseOf_get_sparse (st : SDRState) :
    denseOf (get_sparse st).2 = denseOf st := by
  by_cases hs : st.sparse_valid
  · simp [get_sparse, hs]
  · by_cases hd : st.dense_valid
    · simp [denseOf, get_sparse, get_dense, hs, hd]
    · simp [denseOf, get_sparse, get_dense, hs, hd]

/-! ### C1: the set_sparse / get_sparse contract -/

theorem set_sparse_result (st : SDRState) (l : List Nat)
    (hs : List.Sorted (· < ·) l) (hb : ∀ x ∈ l, x < st.size) :
    set_sparse st l =
      (.ok (), { st with
        sparse := l
        dense_valid := false
        sparse_valid := true
        coordinates_valid := false }) := by
  have h1 : adjSortedB l = true := ((sorted_iff_adj l).mpr hs).1
  have h3 : adjNodupB l = true := ((sorted_iff_adj l).mpr hs).2
  have h2 : ¬ (l ≠ [] ∧ ¬ (l.getLastD 0 < st.size)) := by
    rcases (sorted_last_bound st.size l hs).mpr hb with h | h
    · exact fun hc => hc.1 h
    · exact fun hc => hc.2 h
  unfold set_sparse set_sparse_inplace
  rw [if_neg (by simpa using h1), if_neg (by simpa using h2),
    if_neg (by simpa using h3)]

theorem set_sparse_ok_iff (st : SDRState) (l : List Nat) :
    (set_sparse st l).1 = .ok () ↔
      List.Sorted (· < ·) l ∧ ∀ x ∈ l, x < st.size := by
  constructor
  · intro hok
    unfold set_sparse set_sparse_inplace at hok
    by_cases h1 : adjSortedB l = true
    · by_cases h3 : adjNodupB l = true
      · have hs : List.Sorted (· < ·) l := (sorted_iff_adj l).mp ⟨h1, h3⟩
        refine ⟨hs, ?_⟩
        rw [← sorted_last_bound st.size l hs]
        by_cases h2 : l ≠ [] ∧ ¬ (l.getLastD 0 < st.size)
        · rw [if_neg (by simpa using h1), if_pos (by simpa using h2)] at hok
          exact absurd hok (by simp)
        · by_cases hnil : l = []
          · exact Or.inl hnil
          · push_neg at h2
            exact Or.inr (h2 hnil)
      · by_cases h2 : l ≠ [] ∧ ¬ (l.getLastD 0 < st.size)
        · rw [if_neg (by simpa using h1), if_pos (by simpa using h2)] at hok
          exact absurd hok (by simp)
        · rw [if_neg (by simpa using h1), if_neg (by simpa using h2),
            if_pos (by simpa using h3)] at hok
          exact absurd hok (by simp)
    · rw [if_pos (by simpa using h1)] at hok
      exact absurd hok (by simp)
  · intro ⟨hs, hb⟩
    rw [set_sparse_result st l hs hb]

/-- C1 (amended).  `set_sparse` does not canonicalise: it succeeds exactly
when the given indices are already strictly ascending (sorted and
duplicate-free) and within bounds, in which case `get_sparse` returns the
given list; unsorted input, duplicated input, or an index at or above
`size` is rejected with an error. -/
theorem set_sparse_contract (st : SDRState) (l : List Nat) :
    ((set_sparse st l).1 = .ok () ↔
      List.Sorted (· < ·) l ∧ ∀ x ∈ l, x < st.size) ∧
    (List.Sorted (· < ·) l → (∀ x ∈ l, x < st.size) →
      (get_sparse (set_sparse st l).2).1 = l) := by
  refine ⟨set_sparse_ok_iff st l, fun hs hb => ?_⟩
  rw [set_sparse_result st l hs hb]
  simp [get_sparse]

/-- Witness for `set_sparse_contract` at a concrete input. -/
theorem set_sparse_contract_witness :
    (get_sparse (set_sparse (sdr0 [4]) [1, 3]).2).1 = [1, 3] :=
  (set_sparse_contract (sdr0 [4]) [1, 3]).2 (by decide) (by decide)

/-- Counterexample to C1 as stated: on the unsorted index list `[2, 1]`
(and on the duplicated list `[1, 1]`) `set_sparse` raises instead of
sorting / de-duplicating. -/
theorem set_sparse_no_canonicalisation :
    (set_sparse (sdr0 [4]) [2, 1]).1 =
        .error (.assertFailed "Sparse data must be sorted!") ∧
    (set_sparse (sdr0 [4]) [1, 1]).1 =
        .error (.assertFailed "Sparse data must not contain duplicates!") := by
  constructor <;> rfl

/-! ### C5: add_noise contract violation leaves the SDR unmutated -/

/-- C5.  Whenever `(1 + fraction) * get_sparsity() > 1`, `add_noise`
raises (an `HtmException` from `nta_check`, or an `HtmAssertionError` from
the range `nta_assert` when the fraction is itself out of `[0,1]`; both
are ContractViolation errors) and the observable active-bit content of
the SDR is exactly what it was before the call: only lazily
rematerialised caches may change, never the value. -/
theorem add_noise_rejects_overflow (samp : List Nat → Nat → List Nat)
    (st : SDRState) (f : ℚ)
    (h : 1 < (1 + f) * (get_sparsity st).1) :
    (∃ e, (add_noise samp st f).1 = .error e) ∧
      denseOf (add_noise samp st f).2 = denseOf st := by
  unfold add_noise
  by_cases h0 : 0 ≤ f ∧ f ≤ 1
  · rw [if_neg (by simpa using h0)]
    rw [if_pos (by simpa [get_sparsity] using h)]
    exact ⟨⟨_, rfl⟩, by simpa [get_sparsity] using denseOf_get_sparse st⟩
  · rw [if_pos (by simpa using h0)]
    exact ⟨⟨_, rfl⟩, rfl⟩

/-- Witness for `add_noise_rejects_overflow`: a 4-bit SDR with 3 active
bits and fraction 1/2, so `(1 + 1/2) * (3/4) = 9/8 > 1`. -/
theorem add_noise_rejects_overflow_witness :
    (∃ e, (add_noise (fun pop k => pop.take k)
        (set_sparse (sdr0 [4]) [0, 1, 2]).2 (1/2)).1 = .error e) ∧
      denseOf (add_noise (fun pop k => pop.take k)
        (set_sparse (sdr0 [4]) [0, 1, 2]).2 (1/2)).2 =
      denseOf (set_sparse (sdr0 [4]) [0, 1, 2]).2 := by
  refine add_noise_rejects_overflow _ _ _ ?_
  have hst : (set_sparse (sdr0 [4]) [0, 1, 2]).2 =
      { sdr0 [4] with
        sparse := [0, 1, 2]
        dense_valid := false
        sparse_valid := true
        coordinates_valid := false } := by
    rw [set_sparse_result _ _ (by decide) (by decide)]
  rw [hst]
  have : (get_sparsity ({ sdr0 [4] with
      sparse := [0, 1, 2]
      dense_valid := false
      sparse_valid := true
      coordinates_valid := false } : SDRState)).1 = 3 / 4 := by
    simp [get_sparsity, get_sparse, sdr0]
  rw [this]
  norm_num

/-! ### C3: kill_cells(1.0) clears the SDR -/

/-- Cache coherence invariant of an SDR: the sizes agree, every valid
representation is within bounds, and at least one representation is
valid.  Every state produced by the public SDR operations satisfies
this. -/
structure WFSdr (st : SDRState) : Prop where
  size_eq : st.size = st.dims.prod
  dense_len : st.dense_valid = true → st.dense.length = st.size
  sparse_bound : st.sparse_valid = true → ∀ x ∈ st.sparse, x < st.size
  coords_dims : st.coords.length = st.dims.length
  coords_bound : st.coordinates_valid = true →
      ∀ i < st.coords.length, ∀ x ∈ st.coords.getD i [], x < st.dims.getD i 0
  coords_lens : st.coordinates_valid = true →
      ∀ c ∈ st.coords, c.length = (st.coords.headD []).length
  valid_one : st.dense_valid = true ∨ st.sparse_valid = true ∨
      st.coordinates_valid = true

theorem pyRound_natCast (n : Nat) : pyRound ((n : ℚ)) = (n : ℤ) := by
  unfold pyRound
  have h1 : ⌊(n : ℚ)⌋ = (n : ℤ) := Int.floor_natCast n
  rw [h1]
  norm_num

theorem sampValid_full (n : Nat) (res : List Nat)
    (h : SampValid (List.range n) n res) : ∀ i, i < n → i ∈ res := by
  obtain ⟨hlen, hnd, hsub⟩ := h
  intro i hi
  have hsubf : res.toFinset ⊆ Finset.range n := by
    intro x hx
    rw [List.mem_toFinset] at hx
    simpa using hsub x hx
  have hcard : (Finset.range n).card ≤ res.toFinset.card := by
    rw [List.toFinset_card_of_nodup hnd, hlen, Finset.card_range]
  have heq : res.toFinset = Finset.range n :=
    Finset.eq_of_subset_of_card_le hsubf hcard
  have : i ∈ res.toFinset := heq ▸ Finset.mem_range.mpr hi
  exact List.mem_toFinset.mp this

theorem get_dense_length (st : SDRState)
    (hd : st.dense_valid = true → st.dense.length = st.size) :
    (get_dense st).1.length = st.size := by
  unfold get_dense
  by_cases h : st.dense_valid
  · simpa [h] using hd h
  · by_cases hs : st.sparse_valid <;>
      simp [h, hs, foldl_set_length, get_sparse_size]

theorem get_dense_size (st : SDRState) : (get_dense st).2.size = st.size := by
  unfold get_dense
  by_cases h : st.dense_valid
  · simp [h]
  · by_cases hs : st.sparse_valid <;> simp [h, hs, get_sparse_size]

theorem get_sparse_eq_nil_of_size_zero (st : SDRState) (hwf : WFSdr st)
    (hsz : st.size = 0) : (get_sparse st).1 = [] := by
  unfold get_sparse
  by_cases hs : st.sparse_valid
  · have hb := hwf.sparse_bound hs
    rw [hsz] at hb
    have hnil : st.sparse = [] := by
      rw [List.eq_nil_iff_forall_not_mem]
      intro x hx
      exact absurd (hb x hx) (by omega)
    simp [hs, hnil]
  · by_cases hd : st.dense_valid
    · have hlen : st.dense.length = 0 := by rw [hwf.dense_len hd, hsz]
      have : st.dense = [] := List.eq_nil_of_length_eq_zero hlen
      simp [hs, hd, this, denseToSparse]
    · by_cases hc : st.coordinates_valid
      · have hprod : st.dims.prod = 0 := by rw [← hwf.size_eq, hsz]
        have hzero : (0 : Nat) ∈ st.dims := List.prod_eq_zero_iff.mp hprod
        obtain ⟨i, hi, hdi⟩ := List.mem_iff_getElem.mp hzero
        have hic : i < st.coords.length := by rw [hwf.coords_dims]; exact hi
        have hnil : st.coords.getD i [] = [] := by
          by_contra hne
          obtain ⟨a, t, hat⟩ := List.exists_cons_of_ne_nil hne
          have ha : a ∈ st.coords.getD i [] := by
            rw [hat]; exact List.mem_cons_self a t
          have := hwf.coords_bound hc i hic a ha
          rw [List.getD_eq_getElem _ _ hi, hdi] at this
          omega
        have hmem : st.coords.getD i [] ∈ st.coords := by
          rw [List.getD_eq_getElem _ _ hic]
          exact List.getElem_mem hic
        have hlen0 : (st.coords.head?.getD []).length = 0 := by
          rw [← List.headD_eq_head?_getD, ← hwf.coords_lens hc _ hmem, hnil]
          rfl
        simp [hs, hd, hc, hlen0]
      · rcases hwf.valid_one with h | h | h
        · exact absurd h hd
        · exact absurd h hs
        · exact absurd h hc

/-- C3.  With fraction 1.0 and any seed (any valid sample of the code's
population, the whole index space), `kill_cells` leaves the SDR with no
active bits: `get_sum` returns 0 afterwards. -/
theorem kill_cells_one_clears (samp : List Nat → Nat → List Nat)
    (st : SDRState) (hwf : WFSdr st)
    (hs : SampValid (List.range st.size) st.size
      (samp (List.range st.size) st.size)) :
    (get_sum (kill_cells samp st 1).2).1 = 0 := by
  unfold kill_cells
  rw [if_neg (by norm_num)]
  have hnk : (pyRound ((st.size : ℚ) * 1)).toNat = st.size := by
    rw [mul_one, pyRound_natCast]
    exact Int.toNat_natCast st.size
  rw [hnk]
  by_cases hz : st.size = 0
  · rw [if_pos hz]
    simpa [get_sum] using get_sparse_eq_nil_of_size_zero st hwf hz
  · rw [if_neg hz]
    have hdlen : (get_dense st).1.length = st.size :=
      get_dense_length st hwf.dense_len
    have hdsz : (get_dense st).2.size = st.size := get_dense_size st
    rw [hdsz]
    set d1 := (get_dense st).1 with hd1
    set tk := samp (List.range st.size) st.size with htk
    clear_value tk
    have hcover : ∀ i, i < st.size → i ∈ tk := sampValid_full st.size tk hs
    set d2 := tk.foldl (fun acc i => acc.set i 0) d1 with hd2
    have hlen2 : d2.length = st.size := by
      rw [hd2, foldl_set_length, hdlen]
    have hall0 : ∀ j, d2.getD j 0 = 0 := by
      intro j
      rw [hd2, foldl_set_getD]
      by_cases hj : j < st.size
      · rw [if_pos ⟨hcover j hj, by rwa [hdlen]⟩]
      · rw [if_neg (by rw [hdlen]; tauto)]
        exact List.getD_eq_default _ _ (by omega)
    unfold set_dense set_dense_inplace
    rw [if_pos (by rw [hlen2, hdsz]), if_pos (by rw [hlen2, hdsz])]
    have hd2s : denseToSparse d2 = [] := by
      unfold denseToSparse
      rw [List.filter_eq_nil_iff]
      intro a _
      have h0 := hall0 a
      rw [List.getD_eq_getElem?_getD] at h0
      simp [h0]
    simp [get_sum, get_sparse, hd2s]

/-- Witness for `kill_cells_one_clears` at a concrete input: a 5-bit SDR
with 3 active bits and the identity sampler. -/
theorem kill_cells_one_clears_witness :
    (get_sum (kill_cells (fun pop k => pop.take k)
      (set_sparse (sdr0 [5]) [1, 3, 4]).2 1).2).1 = 0 := by
  refine kill_cells_one_clears _ _ ?_ ?_
  · rw [set_sparse_result _ _ (by decide) (by decide)]
    exact ⟨rfl, by decide, by decide, by decide, by decide, by decide,
      by decide⟩
  · rw [set_sparse_result _ _ (by decide) (by decide)]
    refine ⟨by decide, by decide, by decide⟩

/-! ### C2: kill_cells samples the whole index space -/

theorem kill_cells_eq (samp : List Nat → Nat → List Nat) (st : SDRState)
    (f : ℚ) (h0 : 0 ≤ f ∧ f ≤ 1) (n : Nat)
    (hn : (pyRound ((st.size : ℚ) * f)).toNat = n) (hnz : n ≠ 0) :
    kill_cells samp st f =
      set_dense (get_dense st).2
        ((samp (List.range (get_dense st).2.size) n).foldl
          (fun acc i => acc.set i 0) (get_dense st).1) := by
  unfold kill_cells
  rw [if_neg (by simpa using h0), hn, if_neg hnz]

theorem get_sum_of_dense_valid (st : SDRState) (hd : st.dense_valid = true)
    (hsv : st.sparse_valid = false) :
    (get_sum st).1 = (denseToSparse st.dense).length := by
  unfold get_sum get_sparse
  rw [hsv, hd]
  simp [mergeSort_sorted_lt _ (sorted_denseToSparse st.dense)]

/-- C2 refutation at the failing input.  A 1-dimensional SDR of size 6
with active bits `{0, 1, 2}`, fraction `1/2`: the code computes
`nkill = round(size * fraction) = 3` and samples from `range(6)` (the
whole index space), so `[3, 4, 5]` is a legitimate draw; with that draw
the call succeeds yet every active bit survives (`get_sum` stays 3),
whereas the claim requires exactly `round(fraction * sum) = 2` currently
active bits to be turned off (leaving 1). -/
theorem kill_cells_whole_space_divergence :
    SampValid (List.range 6) 3 [3, 4, 5] ∧
    (pyRound (((set_sparse (sdr0 [6]) [0, 1, 2]).2.size : ℚ) * (1/2))).toNat
      = 3 ∧
    (kill_cells (fun _ _ => [3, 4, 5])
      (set_sparse (sdr0 [6]) [0, 1, 2]).2 (1/2)).1 = .ok () ∧
    (get_sum (kill_cells (fun _ _ => [3, 4, 5])
      (set_sparse (sdr0 [6]) [0, 1, 2]).2 (1/2)).2).1 = 3 ∧
    pyRound ((1/2 : ℚ) *
      (((get_sum (set_sparse (sdr0 [6]) [0, 1, 2]).2).1 : Nat) : ℚ)) = 2 := by
  have hst := set_sparse_result (sdr0 [6]) [0, 1, 2] (by decide) (by decide)
  have hsz : (set_sparse (sdr0 [6]) [0, 1, 2]).2.size = 6 := by
    rw [hst]
    rfl
  have hn : (pyRound (((set_sparse (sdr0 [6]) [0, 1, 2]).2.size : ℚ) *
      (1/2))).toNat = 3 := by
    rw [hsz, show ((6 : Nat) : ℚ) * (1/2) = ((3 : Nat) : ℚ) from by norm_num,
      pyRound_natCast]
    rfl
  refine ⟨?_, hn, ?_, ?_, ?_⟩
  · unfold SampValid
    exact ⟨by decide, by decide, by decide⟩
  · rw [kill_cells_eq _ _ _ (by norm_num) 3 hn (by decide)]
    rw [hst]
    rfl
  · rw [kill_cells_eq _ _ _ (by norm_num) 3 hn (by decide)]
    rw [hst]
    rw [get_sum_of_dense_valid _ (by rfl) (by rfl)]
    decide
  · have hsum : (get_sum (set_sparse (sdr0 [6]) [0, 1, 2]).2).1 = 3 := by
      rw [hst]
      decide
    rw [hsum, show (1/2 : ℚ) * ((3 : Nat) : ℚ) = 3/2 from by norm_num]
    unfold pyRound
    norm_num

/-! ### C4: dense to sparse round trip -/

theorem set_dense_result (st : SDRState) (l : List Nat)
    (h : l.length = st.size) :
    set_dense st l = (.ok (), { st with
      dense := l
      dense_valid := true
      sparse_valid := false
      coordinates_valid := false }) := by
  unfold set_dense set_dense_inplace
  rw [if_pos h, if_pos (show l.length = st.size from h)]

/-- C4.  For every 0/1 list `d` of the right length: writing `d` with
`set_dense`, reading `get_sparse`, writing that index list into a fresh
SDR of the same dimensions with `set_sparse` and reading `get_dense`
reproduces `d` exactly. -/
theorem dense_sparse_round_trip (dims : List Nat) (d : List Nat)
    (hlen : d.length = (sdr0 dims).size)
    (hbits : ∀ x ∈ d, x = 0 ∨ x = 1) :
    (set_dense (sdr0 dims) d).1 = .ok () ∧
    (set_sparse (sdr0 dims)
      (get_sparse (set_dense (sdr0 dims) d).2).1).1 = .ok () ∧
    (get_dense (set_sparse (sdr0 dims)
      (get_sparse (set_dense (sdr0 dims) d).2).1).2).1 = d := by
  have h1 := set_dense_result (sdr0 dims) d hlen
  have hsp : (get_sparse (set_dense (sdr0 dims) d).2).1 = denseToSparse d := by
    rw [h1]
    unfold get_sparse
    simp [mergeSort_sorted_lt _ (sorted_denseToSparse d)]
  have hbound : ∀ x ∈ denseToSparse d, x < (sdr0 dims).size := by
    intro x hx
    have hm := (mem_denseToSparse d x).mp hx
    rw [← hlen]
    exact hm.1
  have h2 := set_sparse_result (sdr0 dims) (denseToSparse d)
    (sorted_denseToSparse d) hbound
  refine ⟨by rw [h1], ?_, ?_⟩
  · rw [hsp, h2]
  · rw [hsp, h2]
    unfold get_dense
    simp only [Bool.false_eq_true, if_false, if_true, reduceIte]
    apply List.ext_getElem
    · rw [foldl_set_length, List.length_replicate]
      exact hlen.symm
    · intro i hi1 hi2
      have hilen : i < d.length := hi2
      have hgd : _ = _ := foldl_set_getD 1 (denseToSparse d)
        (List.replicate (sdr0 dims).size 0) i
      rw [List.length_replicate] at hgd
      have hrep : (List.replicate (sdr0 dims).size (0 : Nat)).getD i 0 = 0 := by
        by_cases hir : i < (sdr0 dims).size
        · rw [List.getD_eq_getElem _ _ (by simpa using hir)]
          simp
        · exact List.getD_eq_default _ _ (by simpa using Nat.le_of_not_lt hir)
      have hmem : i ∈ denseToSparse d ↔ d.getD i 0 ≠ 0 := by
        rw [mem_denseToSparse]
        exact ⟨fun h => h.2, fun h => ⟨hilen, h⟩⟩
      have hdi : d.getD i 0 = d[i] := List.getD_eq_getElem d 0 hilen
      have hlt : i < (sdr0 dims).size := hlen ▸ hilen
      rw [← List.getD_eq_getElem _ 0 hi1, hgd]
      rcases hbits d[i] (List.getElem_mem hilen) with h0 | h0
      · rw [if_neg (fun hc => by
          have := hmem.mp hc.1
          rw [hdi, h0] at this
          exact this rfl)]
        rw [hrep]
        exact h0.symm
      · rw [if_pos ⟨hmem.mpr (by rw [hdi, h0]; omega), hlt⟩]
        exact h0.symm

/-- Witness for `dense_sparse_round_trip` on `d = [0,1,0,1,1]`. -/
theorem dense_sparse_round_trip_witness :
    (get_dense (set_sparse (sdr0 [5])
      (get_sparse (set_dense (sdr0 [5]) [0, 1, 0, 1, 1]).2).1).2).1 =
      [0, 1, 0, 1, 1] :=
  (dense_sparse_round_trip [5] [0, 1, 0, 1, 1] (by decide) (by decide)).2.2

/-! ## Spatial Pooler (`src/psu_capstone/htm/spatial_pooler.py`)

Constants from `constants.py`.  Floats are modelled as `ℚ`.  A `Column`
also carries duty-cycle statistics in the source; they are never read by
any code path under a claim and are omitted here. -/

def CONNECTED_PERM : ℚ := 1/2

def MIN_OVERLAP : Nat := 3

def PERMANENCE_INC : ℚ := 1/100

def PERMANENCE_DEC : ℚ := 1/100

def DESIRED_LOCAL_ACTIVITY : Nat := 10

/-- Proximal synapse: source input index and permanence. -/
structure Synapse where
  source_input : Nat
  permanence : ℚ
deriving Repr

/-- Spatial-pooler column state: grid position, potential synapses, the
stored connected subset, boost, and the transient overlap score. -/
structure SPColumn where
  position : ℤ × ℤ
  potential_synapses : List Synapse
  connected_synapses : List Synapse
  boost : ℚ
  overlap : ℚ
deriving Repr

instance : Inhabited SPColumn := ⟨⟨(0, 0), [], [], 1, 0⟩⟩

/-- `Column.__init__`: boost 1, overlap 0, connected subset =
potential synapses with `permanence > CONNECTED_PERM`. -/
def mkColumn (potential : List Synapse) (position : ℤ × ℤ) : SPColumn :=
  { position := position
    potential_synapses := potential
    connected_synapses := potential.filter
      (fun s => CONNECTED_PERM < s.permanence)
    boost := 1
    overlap := 0 }

/-- `Column.compute_overlap`: count connected synapses whose source bit
is set; below `MIN_OVERLAP` the overlap is forced to 0, otherwise the
raw count is boosted. -/
def compute_overlap (input : List Nat) (c : SPColumn) : SPColumn :=
  let raw := (c.connected_synapses.filter
    (fun s => input.getD s.source_input 0 ≠ 0)).length
  { c with overlap := if MIN_OVERLAP ≤ raw then (raw : ℚ) * c.boost else 0 }

/-- `SpatialPooler._euclidean_distance(p, q) ≤ r`, stated without a
square root: for integer grid positions and any radius this is exactly
`0 ≤ r ∧ dist² ≤ r²`. -/
def withinRadius (p q : ℤ × ℤ) (r : ℚ) : Bool :=
  decide (0 ≤ r ∧ (((p.1 - q.1) ^ 2 + (p.2 - q.2) ^ 2 : ℤ) : ℚ) ≤ r ^ 2)

/-- `SpatialPooler._kth_score`: overlap of the k-th column of the
neighbor list sorted by descending overlap; with fewer than `k`
neighbors, the last (lowest) one; with none, 0.  (The source sorts the
columns; the selected overlap value only depends on the descending-sorted
multiset of overlaps, which is what is sorted here.) -/
def kth_score (neighbors : List SPColumn) (k : Nat) : ℚ :=
  if neighbors.isEmpty then 0
  else
    let ordered := (neighbors.map SPColumn.overlap).mergeSort
      (fun a b => decide (b ≤ a))
    if k = 0 then 0
    else if ordered.length < k then ordered.getLastD 0
    else ordered.getD (k - 1) 0

/-- The neighbor list built inside `SpatialPooler._inhibition` for the
column at index `i`: every other column within `inhibition_radius`. -/
def neighborsOf (cols : List SPColumn) (r : ℚ) (i : Nat) : List SPColumn :=
  (cols.enum.filter (fun p =>
    p.1 ≠ i && withinRadius (cols.getD i default).position p.2.position r)).map
    Prod.snd

/-- `SpatialPooler._inhibition`, returning the indices of the active
columns (Python returns the column objects; list position is object
identity here). -/
def inhibition (cols : List SPColumn) (r : ℚ) : List Nat :=
  (List.range cols.length).filter (fun i =>
    decide (0 < (cols.getD i default).overlap ∧
      kth_score (neighborsOf cols r i) DESIRED_LOCAL_ACTIVITY ≤
        (cols.getD i default).overlap))

/-- `SpatialPooler.columns_to_binary`. -/
def columns_to_binary (total : Nat) (idxs : List Nat) : List Nat :=
  idxs.foldl (fun acc i => acc.set i 1) (List.replicate total 0)

/-- `SpatialPooler.compute_active_columns` for a flat input vector:
length check (`combine_input_fields`), per-column overlap, local
inhibition, then the mask and the active list. -/
def compute_active_columns (input_space_size : Nat) (cols : List SPColumn)
    (input : List Nat) (r : ℚ) : Except String (List Nat × List Nat) :=
  if input.length = input_space_size then
    .ok (columns_to_binary (cols.map (compute_overlap input)).length
           (inhibition (cols.map (compute_overlap input)) r),
         inhibition (cols.map (compute_overlap input)) r)
  else .error "Combined input length mismatch."

/-- `SpatialPooler.learning_phase` on one potential synapse of an active
column. -/
def learn_syn (input : List Nat) (s : Synapse) : Synapse :=
  if input.getD s.source_input 0 ≠ 0 then
    { s with permanence := min 1 (s.permanence + PERMANENCE_INC) }
  else
    { s with permanence := max 0 (s.permanence - PERMANENCE_DEC) }

/-- `SpatialPooler.learning_phase` on one active column: adapt all
potential synapses, then recompute the connected subset. -/
def learning_phase_col (input : List Nat) (c : SPColumn) : SPColumn :=
  { c with
    potential_synapses := c.potential_synapses.map (learn_syn input)
    connected_synapses := (c.potential_synapses.map (learn_syn input)).filter
      (fun s => CONNECTED_PERM < s.permanence) }

/-! ### C6: local inhibition characterisation -/

/-- C6.  A column index is in the active list returned by
`compute_active_columns` iff its computed overlap is strictly positive
and at least the `kth_score` (k = `DESIRED_LOCAL_ACTIVITY` = 10) of its
neighbors within the inhibition radius — where `kth_score` is the k-th
highest overlap among the neighbors, the lowest neighbor's overlap when
there are fewer than k, and 0 when there are none. -/
theorem active_column_iff (n : Nat) (cols : List SPColumn) (input : List Nat)
    (r : ℚ) (mask act : List Nat)
    (h : compute_active_columns n cols input r = .ok (mask, act)) (i : Nat) :
    i ∈ act ↔ i < cols.length ∧
      (0 < ((cols.map (compute_overlap input)).getD i default).overlap ∧
        kth_score (neighborsOf (cols.map (compute_overlap input)) r i)
            DESIRED_LOCAL_ACTIVITY ≤
          ((cols.map (compute_overlap input)).getD i default).overlap) := by
  have hact : act = inhibition (cols.map (compute_overlap input)) r := by
    unfold compute_active_columns at h
    by_cases hl : input.length = n
    · rw [if_pos hl] at h
      exact (Prod.mk.injEq _ _ _ _ ▸ Except.ok.injEq _ _ ▸ h).symm.1.symm ▸ rfl
    · rw [if_neg hl] at h
      exact absurd h (by simp)
  subst hact
  unfold inhibition
  rw [List.mem_filter, List.mem_range, decide_eq_true_eq, List.length_map]

/-- Witness for `active_column_iff`: the empty pooler accepts the empty
input and activates nothing. -/
theorem active_column_iff_witness :
    (0 ∈ ([] : List Nat)) ↔ 0 < ([] : List SPColumn).length ∧
      (0 < ((([] : List SPColumn).map (compute_overlap [])).getD 0
          default).overlap ∧
        kth_score (neighborsOf (([] : List SPColumn).map (compute_overlap []))
            0 0) DESIRED_LOCAL_ACTIVITY ≤
          ((([] : List SPColumn).map (compute_overlap [])).getD 0
            default).overlap) :=
  active_column_iff 0 [] [] 0 [] [] rfl 0

/-! ## Temporal Memory (`src/psu_capstone/htm/temporal_memory.py`)

Cells are arena-indexed by `CellId`; a segment is addressed by the pair
(owning cell, index in that cell's segment list), which is the value
form of Python's object identity.  `random.shuffle` is modelled by an
explicit `shuffler` function argument. -/

def SEGMENT_ACTIVATION_THRESHOLD : Nat := 3

def INITIAL_DISTAL_PERM : ℚ := 21/100

def NEW_SYNAPSE_MAX : Nat := 6

abbrev CellId := Nat

/-- Distal synapse: non-owning source cell reference and permanence. -/
structure DistalSynapse where
  source_cell : CellId
  permanence : ℚ
deriving Repr

/-- Distal segment: owned synapses plus the `sequence_segment` flag. -/
structure Segment where
  synapses : List DistalSynapse
  sequence_segment : Bool
deriving Repr

instance : Inhabited Segment := ⟨⟨[], false⟩⟩

/-- `Segment.matching_synapses`: synapses whose source cell is in the
given set, at any permanence. -/
def Segment.matching_synapses (seg : Segment) (cells : List CellId) :
    List DistalSynapse :=
  seg.synapses.filter (fun syn => syn.source_cell ∈ cells)

/-- `Segment.active_synapses`: connected synapses
(`permanence > CONNECTED_PERM`) whose source cell is in the given set. -/
def Segment.active_synapses (seg : Segment) (cells : List CellId) :
    List DistalSynapse :=
  seg.synapses.filter
    (fun syn => syn.source_cell ∈ cells ∧ CONNECTED_PERM < syn.permanence)

/-- A Temporal Memory column: the cell ids it owns. -/
structure TMColumn where
  cells : List CellId
deriving Repr

/-- Python set insertion, on lists up to membership. -/
def insertUniq {α : Type} [DecidableEq α] (l : List α) (x : α) : List α :=
  if x ∈ l then l else l ++ [x]

/-- `TemporalMemory._active_segments_of(cell, t)` as segment indices:
segments with at least `SEGMENT_ACTIVATION_THRESHOLD` active synapses. -/
def activeSegIdxs (segs : List Segment) (cells : List CellId) : List Nat :=
  (segs.enum.filter (fun p =>
    SEGMENT_ACTIVATION_THRESHOLD ≤ (p.2.active_synapses cells).length)).map
    Prod.fst

/-- Accumulator of `TemporalMemory._best_matching_cell`. -/
structure BMAcc where
  best_match : ℤ
  best_cell : Option CellId
  best_seg : Option (CellId × Nat)
deriving Repr, DecidableEq

/-- Loop body of `_best_matching_cell` for one cell: a segment-less cell
becomes the candidate only while nothing has been found (`best_match`
still -1); otherwise every segment with strictly more matching synapses
than the current best replaces it. -/
def bmStep (segsOf : CellId → List Segment) (prevActive : List CellId)
    (acc : BMAcc) (cell : CellId) : BMAcc :=
  if (segsOf cell).isEmpty then
    if acc.best_match = -1 then ⟨0, some cell, none⟩ else acc
  else
    (segsOf cell).enum.foldl (fun a p =>
      if a.best_match < ((p.2.matching_synapses prevActive).length : ℤ) then
        ⟨((p.2.matching_synapses prevActive).length : ℤ), some cell,
          some (cell, p.1)⟩
      else a) acc

/-- `TemporalMemory._best_matching_cell`. -/
def best_matching_cell (segsOf : CellId → List Segment)
    (prevActive : List CellId) (cells : List CellId) : BMAcc :=
  cells.foldl (bmStep segsOf prevActive) ⟨-1, none, none⟩

/-- Per-step result of `_compute_active_state`: the (possibly grown)
segment arena and the new active / winner cell sets and learning
segment set. -/
structure ASResult where
  segs : List (List Segment)
  active : List CellId
  winners : List CellId
  learning : List (CellId × Nat)
deriving Repr

/-- Loop body of `_compute_active_state` for one active column: the
correctly-predicted path activates the previously predictive cells and
marks their previously active segments for learning; otherwise the
column bursts. -/
def processColumn (prevActive prevPredictive : List CellId) (st : ASResult)
    (col : TMColumn) : Except String ASResult :=
  if (col.cells.filter (fun c => c ∈ prevPredictive)).isEmpty = false then
    .ok ((col.cells.filter (fun c => c ∈ prevPredictive)).foldl (fun a cell =>
      { a with
        active := insertUniq a.active cell
        winners := insertUniq a.winners cell
        learning := (activeSegIdxs (st.segs.getD cell []) prevActive).foldl
          (fun l i => insertUniq l (cell, i)) a.learning }) st)
  else
    match (best_matching_cell (fun c => st.segs.getD c [])
        prevActive col.cells).best_seg with
    | some segId =>
        match (best_matching_cell (fun c => st.segs.getD c [])
            prevActive col.cells).best_cell with
        | some w => .ok { st with
            active := col.cells.foldl insertUniq st.active
            winners := insertUniq st.winners w
            learning := insertUniq st.learning segId }
        | none => .error "unreachable: segment without cell"
    | none =>
        match (match (best_matching_cell (fun c => st.segs.getD c [])
                  prevActive col.cells).best_cell with
               | some w => some w
               | none => col.cells.head?) with
        | none => .error "IndexError: list index out of range"
        | some w => .ok { st with
            segs := st.segs.set w (st.segs.getD w [] ++ [⟨[], false⟩])
            active := col.cells.foldl insertUniq st.active
            winners := insertUniq st.winners w
            learning := insertUniq st.learning (w, (st.segs.getD w []).length) }

/-- `TemporalMemory._compute_active_state`. -/
def compute_active_state (segs : List (List Segment))
    (prevActive prevPredictive : List CellId)
    (active_columns : List TMColumn) : Except String ASResult :=
  active_columns.foldlM (processColumn prevActive prevPredictive)
    { segs := segs, active := [], winners := [], learning := [] }

/-- `TemporalMemory._compute_predictive_state`: a cell is predictive iff
some segment has at least the threshold of connected synapses to the
cells active at `t`. -/
def compute_predictive_state (segs : List (List Segment))
    (activeT : List CellId) (columns : List TMColumn) : List CellId :=
  columns.foldl (fun acc col =>
    col.cells.foldl (fun acc2 cell =>
      if (segs.getD cell []).any (fun seg =>
          decide (SEGMENT_ACTIVATION_THRESHOLD ≤
            (seg.active_synapses activeT).length)) then
        insertUniq acc2 cell
      else acc2) acc) []

/-- `TemporalMemory._reinforce_segment`: clamp-adjust existing synapses
toward the previously active cells, then grow up to `NEW_SYNAPSE_MAX`
synapses at `INITIAL_DISTAL_PERM` from shuffled previously-active cells
not yet connected, and set `sequence_segment`. -/
def reinforce_segment (prevActive : List CellId)
    (shuffler : List CellId → List CellId) (seg : Segment) : Segment :=
  { synapses :=
      seg.synapses.map (fun syn =>
        if syn.source_cell ∈ prevActive then
          { syn with permanence := min 1 (syn.permanence + PERMANENCE_INC) }
        else
          { syn with permanence := max 0 (syn.permanence - PERMANENCE_DEC) })
      ++ ((shuffler (prevActive.filter
            (fun c => c ∉ seg.synapses.map DistalSynapse.source_cell))).take
          NEW_SYNAPSE_MAX).map
        (fun c => { source_cell := c, permanence := INITIAL_DISTAL_PERM })
    sequence_segment := true }

/-- `TemporalMemory._punish_segment`: decrement every synapse, floored
at 0. -/
def punish_segment (seg : Segment) : Segment :=
  { seg with synapses := seg.synapses.map (fun syn =>
      { syn with permanence := max 0 (syn.permanence - PERMANENCE_DEC) }) }

/-- Apply a segment transformation at a (cell, index) address of the
arena. -/
def modifySeg (segs : List (List Segment)) (sid : CellId × Nat)
    (f : Segment → Segment) : List (List Segment) :=
  segs.set sid.1 ((segs.getD sid.1 []).set sid.2
    (f ((segs.getD sid.1 []).getD sid.2 default)))

/-- `TemporalMemory._learn`: punish previously predictive segments of
columns that did not activate, reinforce the learning segments. -/
def tm_learn (shuffler : List CellId → List CellId)
    (columns : List TMColumn) (segs : List (List Segment))
    (prevActive prevPredictive activeT : List CellId)
    (learningT : List (CellId × Nat)) :
    List (List Segment) × List (CellId × Nat) :=
  let negative := columns.foldl (fun acc col =>
    if col.cells.any (fun c => c ∈ activeT) then acc
    else col.cells.foldl (fun acc2 cell =>
      if cell ∈ prevPredictive then
        (activeSegIdxs (segs.getD cell []) prevActive).foldl
          (fun l i => insertUniq l (cell, i)) acc2
      else acc2) acc) []
  let segs1 := learningT.foldl
    (fun s sid => modifySeg s sid (reinforce_segment prevActive shuffler)) segs
  (negative.foldl (fun s sid => modifySeg s sid punish_segment) segs1,
   negative)

/-- `TemporalMemory.cells_to_binary`: flat 0/1 vector over
columns × cells_per_column. -/
def cells_to_binary (columns : List TMColumn) (cells_per_column : Nat)
    (cells : List CellId) : List Nat :=
  columns.enum.foldl (fun vec p =>
    p.2.cells.enum.foldl (fun v q =>
      if q.2 ∈ cells then v.set (p.1 * cells_per_column + q.1) 1 else v) vec)
    (List.replicate (columns.length * cells_per_column) 0)

/-- An entry of the sequence passed to `TemporalMemory.step`: either an
actual `Column` or a value of any other type. -/
inductive StepEntry where
  | col (c : TMColumn)
  | notColumn
deriving Repr

/-- Value returned by (and state left behind by) `TemporalMemory.step`. -/
structure StepResult where
  active_cells : List Nat
  predictive_cells : List Nat
  learning_cells : List Nat
  segs : List (List Segment)
  activeT : List CellId
  winnersT : List CellId
  predictiveT : List CellId
deriving Repr

/-- `TemporalMemory.step`: silently filter out non-`Column` entries,
compute the active state, the predictive state, learn, and return the
binary vectors for the new step `t`. -/
def tm_step (shuffler : List CellId → List CellId)
    (columns : List TMColumn) (cells_per_column : Nat)
    (segs : List (List Segment)) (prevActive prevPredictive : List CellId)
    (entries : List StepEntry) : Except String StepResult :=
  match compute_active_state segs prevActive prevPredictive
      (entries.filterMap (fun e => match e with
        | .col c => some c
        | .notColumn => none)) with
  | .error e => .error e
  | .ok r =>
      .ok { active_cells := cells_to_binary columns cells_per_column r.active
            predictive_cells := cells_to_binary columns cells_per_column
              (compute_predictive_state r.segs r.active columns)
            learning_cells := cells_to_binary columns cells_per_column r.winners
            segs := (tm_learn shuffler columns r.segs prevActive prevPredictive
              r.active r.learning).1
            activeT := r.active
            winnersT := r.winners
            predictiveT := compute_predictive_state r.segs r.active columns }

/-! ### C8: step silently filters non-Column entries -/

/-- C8 evaluation at the failing input: a step whose input contains a
non-`Column` entry returns normally with the junk entry dropped — the
result is identical to the step on the filtered input and no
ContractViolation is raised, contradicting the claim (the spec itself
flags this code behaviour as a latent defect). -/
theorem step_silently_filters_non_columns :
    tm_step id [⟨[0]⟩] 1 [[]] [] [] [.col ⟨[0]⟩, .notColumn] =
      tm_step id [⟨[0]⟩] 1 [[]] [] [] [.col ⟨[0]⟩] ∧
    (tm_step id [⟨[0]⟩] 1 [[]] [] [] [.col ⟨[0]⟩, .notColumn]).map
      StepResult.activeT = .ok [0] :=
  ⟨rfl, rfl⟩

/-! ### C9: permanences stay in the unit interval -/

/-- C9.  Every permanence-modifying operation preserves `[0,1]` bounds:
`SpatialPooler.learning_phase` clamps into `[0,1]` (for both the
adapted potential synapses and the recomputed connected subset),
Temporal Memory reinforcement clamps existing synapses and grows new
ones at `INITIAL_DISTAL_PERM` = 0.21 ∈ `[0,1]`, and punishment floors
at 0 while never increasing. -/
theorem permanences_stay_in_unit (input : List Nat) (c : SPColumn)
    (prevActive : List CellId) (shuffler : List CellId → List CellId)
    (seg seg2 : Segment)
    (hc : ∀ s ∈ c.potential_synapses, 0 ≤ s.permanence ∧ s.permanence ≤ 1)
    (hseg : ∀ syn ∈ seg.synapses, 0 ≤ syn.permanence ∧ syn.permanence ≤ 1)
    (hseg2 : ∀ syn ∈ seg2.synapses, 0 ≤ syn.permanence ∧ syn.permanence ≤ 1) :
    (∀ s ∈ (learning_phase_col input c).potential_synapses,
        0 ≤ s.permanence ∧ s.permanence ≤ 1) ∧
    (∀ s ∈ (learning_phase_col input c).connected_synapses,
        0 ≤ s.permanence ∧ s.permanence ≤ 1) ∧
    (∀ syn ∈ (reinforce_segment prevActive shuffler seg).synapses,
        0 ≤ syn.permanence ∧ syn.permanence ≤ 1) ∧
    (∀ syn ∈ (punish_segment seg2).synapses,
        0 ≤ syn.permanence ∧ syn.permanence ≤ 1) := by
  have hclampUp : ∀ p : ℚ, 0 ≤ p → p ≤ 1 →
      0 ≤ min 1 (p + PERMANENCE_INC) ∧ min 1 (p + PERMANENCE_INC) ≤ 1 := by
    intro p h0 _
    refine ⟨le_min (by norm_num) ?_, min_le_left _ _⟩
    have : (0 : ℚ) ≤ PERMANENCE_INC := by norm_num [PERMANENCE_INC]
    linarith
  have hclampDown : ∀ p : ℚ, 0 ≤ p → p ≤ 1 →
      0 ≤ max 0 (p - PERMANENCE_DEC) ∧ max 0 (p - PERMANENCE_DEC) ≤ 1 := by
    intro p _ h1
    refine ⟨le_max_left _ _, max_le (by norm_num) ?_⟩
    have : (0 : ℚ) ≤ PERMANENCE_DEC := by norm_num [PERMANENCE_DEC]
    linarith
  have hpot : ∀ s ∈ (learning_phase_col input c).potential_synapses,
      0 ≤ s.permanence ∧ s.permanence ≤ 1 := by
    intro s hs
    unfold learning_phase_col at hs
    simp only [List.mem_map] at hs
    obtain ⟨s0, hs0, rfl⟩ := hs
    obtain ⟨h0, h1⟩ := hc s0 hs0
    unfold learn_syn
    by_cases hi : input.getD s0.source_input 0 ≠ 0
    · rw [if_pos hi]
      exact hclampUp _ h0 h1
    · rw [if_neg hi]
      exact hclampDown _ h0 h1
  refine ⟨hpot, ?_, ?_, ?_⟩
  · intro s hs
    unfold learning_phase_col at hs
    simp only [List.mem_filter] at hs
    exact hpot s hs.1
  · intro syn hsyn
    unfold reinforce_segment at hsyn
    simp only [List.mem_append, List.mem_map] at hsyn
    rcases hsyn with ⟨syn0, hs0, rfl⟩ | ⟨cc, _, rfl⟩
    · obtain ⟨h0, h1⟩ := hseg syn0 hs0
      by_cases hm : syn0.source_cell ∈ prevActive
      · rw [if_pos hm]
        exact hclampUp _ h0 h1
      · rw [if_neg hm]
        exact hclampDown _ h0 h1
    · constructor <;> norm_num [INITIAL_DISTAL_PERM]
  · intro syn hsyn
    unfold punish_segment at hsyn
    simp only [List.mem_map] at hsyn
    obtain ⟨syn0, hs0, rfl⟩ := hsyn
    obtain ⟨h0, h1⟩ := hseg2 syn0 hs0
    exact hclampDown _ h0 h1

/-- Witness for `permanences_stay_in_unit` at concrete synapse data:
the one synapse left by reinforcing a one-synapse segment against an
empty previously-active set keeps its permanence in `[0,1]`. -/
theorem permanences_stay_in_unit_witness :
    0 ≤ (max 0 (21/100 - PERMANENCE_DEC) : ℚ) ∧
      (max 0 (21/100 - PERMANENCE_DEC) : ℚ) ≤ 1 := by
  have h := (permanences_stay_in_unit [] ⟨(0, 0), [], [], 1, 0⟩ [] id
    { synapses := [{ source_cell := 9, permanence := 21/100 }]
      sequence_segment := false }
    ⟨[], false⟩
    (by simp)
    (by intro syn hsyn
        have heq : syn = { source_cell := 9, permanence := 21/100 } := by
          simpa using hsyn
        subst heq
        norm_num)
    (by simp)).2.2.1
  have hm : (⟨9, max 0 (21/100 - PERMANENCE_DEC)⟩ : DistalSynapse) ∈
      (reinforce_segment [] id
        { synapses := [{ source_cell := 9, permanence := 21/100 }]
          sequence_segment := false }).synapses := by
    show _ ∈ ([⟨9, max 0 (21/100 - PERMANENCE_DEC)⟩] : List DistalSynapse)
    exact List.mem_cons_self _ _
  exact h _ hm

/-! ### C10: winner cells are a subset of active cells -/

theorem mem_insertUniq {α : Type} [DecidableEq α] (l : List α) (x y : α) :
    y ∈ insertUniq l x ↔ y ∈ l ∨ y = x := by
  unfold insertUniq
  by_cases h : x ∈ l
  · rw [if_pos h]
    constructor
    · exact Or.inl
    · rintro (hy | rfl)
      · exact hy
      · exact h
  · rw [if_neg h]
    simp

theorem mem_foldl_insertUniq {α : Type} [DecidableEq α] (xs l : List α)
    (y : α) : y ∈ xs.foldl insertUniq l ↔ y ∈ l ∨ y ∈ xs := by
  induction xs generalizing l with
  | nil => simp
  | cons x rest ih =>
    rw [List.foldl_cons, ih, mem_insertUniq]
    simp only [List.mem_cons]
    tauto

theorem mem_foldl_insert_pairs (cell : CellId) (idxs : List Nat)
    (l : List (CellId × Nat)) (y : CellId × Nat) :
    y ∈ idxs.foldl (fun l2 i => insertUniq l2 (cell, i)) l ↔
      y ∈ l ∨ ∃ i ∈ idxs, y = (cell, i) := by
  induction idxs generalizing l with
  | nil => simp
  | cons i rest ih =>
    rw [List.foldl_cons, ih, mem_insertUniq]
    simp only [List.mem_cons]
    constructor
    · rintro (⟨h | h⟩ | ⟨j, hj, rfl⟩)
      · exact Or.inl h
      · exact Or.inr ⟨i, Or.inl rfl, h⟩
      · exact Or.inr ⟨j, Or.inr hj, rfl⟩
    · rintro (h | ⟨j, (rfl | hj), rfl⟩)
      · exact Or.inl (Or.inl h)
      · exact Or.inl (Or.inr rfl)
      · exact Or.inr ⟨j, hj, rfl⟩

theorem enum_fold_cell_mem (c : CellId) (pa : List CellId)
    (l : List (Nat × Segment)) (acc : BMAcc) (w : CellId)
    (h : (l.foldl (fun a p =>
        if a.best_match < ((p.2.matching_synapses pa).length : ℤ) then
          ⟨((p.2.matching_synapses pa).length : ℤ), some c, some (c, p.1)⟩
        else a) acc).best_cell = some w) :
    w = c ∨ acc.best_cell = some w := by
  induction l generalizing acc with
  | nil => exact Or.inr h
  | cons p rest ih =>
    rw [List.foldl_cons] at h
    rcases ih _ h with hc | heq
    · exact Or.inl hc
    · by_cases hlt : acc.best_match <
          ((p.2.matching_synapses pa).length : ℤ)
      · rw [if_pos hlt] at heq
        exact Or.inl (by simpa using heq.symm)
      · rw [if_neg hlt] at heq
        exact Or.inr heq

theorem bm_best_cell_mem (segsOf : CellId → List Segment)
    (pa : List CellId) (cells : List CellId) (acc : BMAcc) (w : CellId)
    (h : (cells.foldl (bmStep segsOf pa) acc).best_cell = some w) :
    w ∈ cells ∨ acc.best_cell = some w := by
  induction cells generalizing acc with
  | nil => exact Or.inr h
  | cons c rest ih =>
    rw [List.foldl_cons] at h
    rcases ih _ h with hmem | heq
    · exact Or.inl (List.mem_cons_of_mem c hmem)
    · unfold bmStep at heq
      by_cases h1 : (segsOf c).isEmpty
      · rw [if_pos h1] at heq
        by_cases h2 : acc.best_match = -1
        · rw [if_pos h2] at heq
          exact Or.inl (by simp at heq; simp [heq])
        · rw [if_neg h2] at heq
          exact Or.inr heq
      · rw [if_neg h1] at heq
        rcases enum_fold_cell_mem c pa _ acc w heq with rfl | heq2
        · exact Or.inl (List.mem_cons_self w rest)
        · exact Or.inr heq2

theorem predicted_fold_sub (pa : List CellId) (g : CellId → List Segment)
    (cells : List CellId) : ∀ (st : ASResult),
    (∀ c ∈ st.winners, c ∈ st.active) →
    ∀ c ∈ (cells.foldl (fun a cell =>
        { a with
          active := insertUniq a.active cell
          winners := insertUniq a.winners cell
          learning := (activeSegIdxs (g cell) pa).foldl
            (fun l i => insertUniq l (cell, i)) a.learning }) st).winners,
      c ∈ (cells.foldl (fun a cell =>
        { a with
          active := insertUniq a.active cell
          winners := insertUniq a.winners cell
          learning := (activeSegIdxs (g cell) pa).foldl
            (fun l i => insertUniq l (cell, i)) a.learning }) st).active := by
  induction cells with
  | nil => exact fun st hinv => hinv
  | cons x rest ih =>
    intro st hinv
    rw [List.foldl_cons]
    refine ih _ ?_
    intro c hc
    simp only [mem_insertUniq] at hc ⊢
    rcases hc with hc | rfl
    · exact Or.inl (hinv c hc)
    · exact Or.inr rfl

/-- `processColumn` preserves winner-within-active: every winner it adds
belongs to a column whose cells were all just activated. -/
theorem processColumn_winners_sub (pa pp : List CellId) (st st' : ASResult)
    (col : TMColumn) (h : processColumn pa pp st col = .ok st')
    (hinv : ∀ c ∈ st.winners, c ∈ st.active) :
    ∀ c ∈ st'.winners, c ∈ st'.active := by
  unfold processColumn at h
  by_cases hpred : (col.cells.filter (fun c => c ∈ pp)).isEmpty = false
  · rw [if_pos hpred] at h
    obtain rfl : _ = st' := Except.ok.inj h
    exact predicted_fold_sub pa (fun c => st.segs.getD c []) _ st hinv
  · rw [if_neg hpred] at h
    have hactive : ∀ c, c ∈ st.active ∨ c ∈ col.cells →
        c ∈ col.cells.foldl insertUniq st.active := by
      intro c hc
      rw [mem_foldl_insertUniq]
      exact hc
    rcases hseg : (best_matching_cell (fun c => st.segs.getD c [])
        pa col.cells).best_seg with _ | segId
    · rw [hseg] at h
      rcases hcell : (best_matching_cell (fun c => st.segs.getD c [])
          pa col.cells).best_cell with _ | w
      · rw [hcell] at h
        rcases hhead : col.cells.head? with _ | w0
        · rw [hhead] at h
          exact absurd h (by simp)
        · rw [hhead] at h
          obtain rfl : _ = st' := Except.ok.inj h
          intro c hc
          simp only [mem_insertUniq] at hc
          rcases hc with hc | rfl
          · exact hactive c (Or.inl (hinv c hc))
          · exact hactive c (Or.inr (List.mem_of_mem_head? hhead))
      · rw [hcell] at h
        obtain rfl : _ = st' := Except.ok.inj h
        intro c hc
        simp only [mem_insertUniq] at hc
        rcases hc with hc | rfl
        · exact hactive c (Or.inl (hinv c hc))
        · rcases bm_best_cell_mem _ _ _ _ _ hcell with hm | habs
          · exact hactive c (Or.inr hm)
          · exact absurd habs (by simp)
    · rw [hseg] at h
      rcases hcell : (best_matching_cell (fun c => st.segs.getD c [])
          pa col.cells).best_cell with _ | w
      · rw [hcell] at h
        exact absurd h (by simp)
      · rw [hcell] at h
        obtain rfl : _ = st' := Except.ok.inj h
        intro c hc
        simp only [mem_insertUniq] at hc
        rcases hc with hc | rfl
        · exact hactive c (Or.inl (hinv c hc))
        · rcases bm_best_cell_mem _ _ _ _ _ hcell with hm | habs
          · exact hactive c (Or.inr hm)
          · exact absurd habs (by simp)

theorem compute_active_state_winners_sub (segs : List (List Segment))
    (pa pp : List CellId) (acs : List TMColumn) (r : ASResult)
    (h : compute_active_state segs pa pp acs = .ok r) :
    ∀ c ∈ r.winners, c ∈ r.active := by
  unfold compute_active_state at h
  have main : ∀ (l : List TMColumn) (st : ASResult),
      (∀ c ∈ st.winners, c ∈ st.active) →
      l.foldlM (processColumn pa pp) st = .ok r →
      ∀ c ∈ r.winners, c ∈ r.active := by
    intro l
    induction l with
    | nil =>
      intro st hinv hfold
      rw [List.foldlM_nil] at hfold
      obtain rfl : st = r := Except.ok.inj hfold
      exact hinv
    | cons col rest ih =>
      intro st hinv hfold
      rw [List.foldlM_cons] at hfold
      rcases hstep : processColumn pa pp st col with e | st1
      · rw [hstep] at hfold
        exact absurd hfold (by simp [Bind.bind, Except.bind])
      · rw [hstep] at hfold
        refine ih st1 (processColumn_winners_sub pa pp st st1 col hstep hinv) ?_
        simpa [Bind.bind, Except.bind] using hfold
  exact main acs _ (by simp) h

def VecLe (v1 v2 : List Nat) : Prop :=
  v1.length = v2.length ∧ ∀ j, v1.getD j 0 = 1 → v2.getD j 0 = 1

theorem vecLe_set_both (v1 v2 : List Nat) (h : VecLe v1 v2) (p : Nat) :
    VecLe (v1.set p 1) (v2.set p 1) := by
  obtain ⟨hlen, himpl⟩ := h
  refine ⟨by simp [hlen], ?_⟩
  intro j hj
  by_cases hp : j = p
  · subst hp
    by_cases hl : j < v2.length
    · rw [List.getD_eq_getElem?_getD, List.getElem?_set_self',
        List.getElem?_eq_getElem hl]
      simp
    · rw [List.getD_eq_default _ _ (by
        rw [List.length_set]
        exact Nat.le_of_not_lt hl)]
      rw [List.getD_eq_default _ _ (by
        rw [List.length_set, hlen]
        exact Nat.le_of_not_lt hl)] at hj
      exact hj
  · rw [List.getD_eq_getElem?_getD, List.getElem?_set_ne (Ne.symm hp),
      ← List.getD_eq_getElem?_getD]
    rw [List.getD_eq_getElem?_getD, List.getElem?_set_ne (Ne.symm hp),
      ← List.getD_eq_getElem?_getD] at hj
    exact himpl j hj

theorem vecLe_set_right (v1 v2 : List Nat) (h : VecLe v1 v2) (p : Nat)
    (hp : p < v2.length) : VecLe v1 (v2.set p 1) := by
  obtain ⟨hlen, himpl⟩ := h
  refine ⟨by simp [hlen], ?_⟩
  intro j hj
  by_cases hjp : j = p
  · subst hjp
    rw [List.getD_eq_getElem?_getD, List.getElem?_set_self',
      List.getElem?_eq_getElem hp]
    simp
  · rw [List.getD_eq_getElem?_getD, List.getElem?_set_ne (Ne.symm hjp),
      ← List.getD_eq_getElem?_getD]
    exact himpl j hj

theorem vecLe_set_right_oob (v1 v2 : List Nat) (h : VecLe v1 v2) (p : Nat)
    (hp : ¬ p < v2.length) : VecLe v1 (v2.set p 1) := by
  rw [List.set_eq_of_length_le (Nat.le_of_not_lt hp)]
  exact h

theorem ctb_inner_impl (s1 s2 : List CellId)
    (hsub : ∀ c ∈ s1, c ∈ s2) (base : Nat)
    (ps : List (Nat × CellId)) (v1 v2 : List Nat) (h : VecLe v1 v2) :
    VecLe (ps.foldl (fun v q => if q.2 ∈ s1 then v.set (base + q.1) 1 else v) v1)
      (ps.foldl (fun v q => if q.2 ∈ s2 then v.set (base + q.1) 1 else v) v2) := by
  induction ps generalizing v1 v2 with
  | nil => exact h
  | cons q rest ih =>
    rw [List.foldl_cons, List.foldl_cons]
    refine ih _ _ ?_
    by_cases h1 : q.2 ∈ s1
    · rw [if_pos h1, if_pos (hsub _ h1)]
      exact vecLe_set_both _ _ h _
    · rw [if_neg h1]
      by_cases h2 : q.2 ∈ s2
      · rw [if_pos h2]
        by_cases hp : base + q.1 < v2.length
        · exact vecLe_set_right _ _ h _ hp
        · exact vecLe_set_right_oob _ _ h _ hp
      · rw [if_neg h2]
        exact h

theorem ctb_impl (columns : List TMColumn) (cpc : Nat)
    (s1 s2 : List CellId) (hsub : ∀ c ∈ s1, c ∈ s2) :
    VecLe (cells_to_binary columns cpc s1) (cells_to_binary columns cpc s2) := by
  unfold cells_to_binary
  have main : ∀ (cs : List (Nat × TMColumn)) (v1 v2 : List Nat), VecLe v1 v2 →
      VecLe (cs.foldl (fun vec p => p.2.cells.enum.foldl (fun v q =>
          if q.2 ∈ s1 then v.set (p.1 * cpc + q.1) 1 else v) vec) v1)
        (cs.foldl (fun vec p => p.2.cells.enum.foldl (fun v q =>
          if q.2 ∈ s2 then v.set (p.1 * cpc + q.1) 1 else v) vec) v2) := by
    intro cs
    induction cs with
    | nil => exact fun v1 v2 h => h
    | cons p rest ih =>
      intro v1 v2 h
      rw [List.foldl_cons, List.foldl_cons]
      exact ih _ _ (ctb_inner_impl s1 s2 hsub (p.1 * cpc) _ _ _ h)
  exact main _ _ _ ⟨rfl, fun j hj => hj⟩

/-- C10.  After every successful `step`, the winner-cell set recorded for
the new step is a subset of the active-cell set, and hence every 1 bit
of the returned `learning_cells` vector is a 1 bit of the returned
`active_cells` vector. -/
theorem winners_subset_active (shuffler : List CellId → List CellId)
    (columns : List TMColumn) (cpc : Nat) (segs : List (List Segment))
    (pa pp : List CellId) (entries : List StepEntry) (r : StepResult)
    (h : tm_step shuffler columns cpc segs pa pp entries = .ok r) :
    (∀ c ∈ r.winnersT, c ∈ r.activeT) ∧
    ∀ i, r.learning_cells.getD i 0 = 1 → r.active_cells.getD i 0 = 1 := by
  unfold tm_step at h
  split at h
  · exact absurd h (by simp)
  next r0 heq =>
    have hsub := compute_active_state_winners_sub _ _ _ _ _ heq
    obtain rfl : _ = r := Except.ok.inj h
    exact ⟨hsub, (ctb_impl columns cpc r0.winners r0.active hsub).2⟩

/-- Witness for `winners_subset_active` on a concrete bursting step. -/
theorem winners_subset_active_witness :
    (∀ c ∈ [0], c ∈ [0]) ∧
    ∀ i, ([1] : List Nat).getD i 0 = 1 → ([1] : List Nat).getD i 0 = 1 := by
  have h := winners_subset_active id [⟨[0]⟩] 1 [[]] [] [] [.col ⟨[0]⟩] _ rfl
  exact h

/-! ### C7: bursting columns and winner selection -/

/-- Matching score of one segment: number of synapses (at any
permanence) onto the previously active cells. -/
def segScore (pa : List CellId) (seg : Segment) : ℤ :=
  ((seg.matching_synapses pa).length : ℤ)

/-- Matching score of a cell, as `_best_matching_cell` ranks cells: the
best matching count over its segments, or 0 for a segment-less cell. -/
def cellScore (segsOf : CellId → List Segment) (pa : List CellId)
    (c : CellId) : ℤ :=
  if (segsOf c).isEmpty then 0
  else ((segsOf c).map (segScore pa)).foldr max 0

/-- The segment recorded by `_best_matching_cell` for a winner `w`:
none when `w` is segment-less, otherwise a valid segment index of `w`
attaining `w`'s cell score. -/
def SegW (segsOf : CellId → List Segment) (pa : List CellId) (w : CellId)
    (o : Option (CellId × Nat)) : Prop :=
  if (segsOf w).isEmpty then o = none
  else ∃ j, j < (segsOf w).length ∧ o = some (w, j) ∧
    segScore pa ((segsOf w).getD j default) = cellScore segsOf pa w

theorem le_foldr_max (l : List ℤ) (z : ℤ) : ∀ x ∈ l, x ≤ l.foldr max z := by
  induction l with
  | nil => simp
  | cons a t ih =>
    intro x hx
    rcases List.mem_cons.mp hx with rfl | hx
    · exact le_max_left _ _
    · exact le_trans (ih x hx) (le_max_right _ _)

theorem foldr_max_attained (l : List ℤ) (hne : l ≠ [])
    (hpos : ∀ x ∈ l, 0 ≤ x) : ∃ x ∈ l, x = l.foldr max 0 := by
  induction l with
  | nil => exact absurd rfl hne
  | cons a t ih =>
    rcases t with _ | ⟨b, t2⟩
    · refine ⟨a, List.mem_cons_self a [], ?_⟩
      simp only [List.foldr]
      exact (max_eq_left (hpos a (List.mem_cons_self a []))).symm
    · obtain ⟨x, hx, hxe⟩ := ih (by simp)
        (fun x hx => hpos x (List.mem_cons_of_mem a hx))
      by_cases hle : a ≤ (b :: t2).foldr max 0
      · refine ⟨x, List.mem_cons_of_mem a hx, ?_⟩
        rw [List.foldr_cons, max_eq_right hle]
        exact hxe
      · refine ⟨a, List.mem_cons_self a _, ?_⟩
        rw [List.foldr_cons, max_eq_left (le_of_not_le hle)]

theorem foldr_max_init_le (l : List ℤ) : (0 : ℤ) ≤ l.foldr max 0 := by
  induction l with
  | nil => simp
  | cons a t ih => exact le_trans ih (le_max_right a _)

theorem cellScore_nonneg (segsOf : CellId → List Segment)
    (pa : List CellId) (c : CellId) : 0 ≤ cellScore segsOf pa c := by
  unfold cellScore
  by_cases h : (segsOf c).isEmpty
  · rw [if_pos h]
  · rw [if_neg h]
    exact foldr_max_init_le _

theorem seg_fold_unchanged (c : CellId) (pa : List CellId)
    (ps : List (Nat × Segment)) (acc : BMAcc)
    (h : ∀ p ∈ ps, segScore pa p.2 ≤ acc.best_match) :
    ps.foldl (fun a p =>
      if a.best_match < ((p.2.matching_synapses pa).length : ℤ) then
        ⟨((p.2.matching_synapses pa).length : ℤ), some c, some (c, p.1)⟩
      else a) acc = acc := by
  induction ps generalizing acc with
  | nil => rfl
  | cons p rest ih =>
    rw [List.foldl_cons,
      if_neg (show ¬ acc.best_match <
          ((p.2.matching_synapses pa).length : ℤ) from
        not_lt.mpr (h p (List.mem_cons_self p rest)))]
    exact ih acc (fun q hq => h q (List.mem_cons_of_mem p hq))

theorem seg_fold_realized (c : CellId) (pa : List CellId)
    (ps : List (Nat × Segment)) (M : ℤ)
    (hub : ∀ p ∈ ps, segScore pa p.2 ≤ M)
    (hex : ∃ p ∈ ps, segScore pa p.2 = M) :
    ∀ (acc : BMAcc), acc.best_match < M →
    ∃ p ∈ ps, segScore pa p.2 = M ∧
      ps.foldl (fun a q =>
        if a.best_match < ((q.2.matching_synapses pa).length : ℤ) then
          ⟨((q.2.matching_synapses pa).length : ℤ), some c, some (c, q.1)⟩
        else a) acc = ⟨M, some c, some (c, p.1)⟩ := by
  induction ps with
  | nil =>
    obtain ⟨p, hp, _⟩ := hex
    exact absurd hp (by simp)
  | cons p rest ih =>
    intro acc hacc
    by_cases hpM : segScore pa p.2 = M
    · refine ⟨p, List.mem_cons_self p rest, hpM, ?_⟩
      rw [List.foldl_cons, if_pos (by
        show acc.best_match < ((p.2.matching_synapses pa).length : ℤ)
        rw [show ((p.2.matching_synapses pa).length : ℤ) = segScore pa p.2
            from rfl, hpM]
        exact hacc)]
      have : (⟨((p.2.matching_synapses pa).length : ℤ), some c,
          some (c, p.1)⟩ : BMAcc) = ⟨M, some c, some (c, p.1)⟩ := by
        rw [show ((p.2.matching_synapses pa).length : ℤ) = segScore pa p.2
          from rfl, hpM]
      rw [this]
      exact seg_fold_unchanged c pa rest _ (fun q hq => by
        simpa using hub q (List.mem_cons_of_mem p hq))
    · have hex2 : ∃ q ∈ rest, segScore pa q.2 = M := by
        obtain ⟨q, hq, hqM⟩ := hex
        rcases List.mem_cons.mp hq with rfl | hq2
        · exact absurd hqM hpM
        · exact ⟨q, hq2, hqM⟩
      have hub2 : ∀ q ∈ rest, segScore pa q.2 ≤ M :=
        fun q hq => hub q (List.mem_cons_of_mem p hq)
      rw [List.foldl_cons]
      by_cases hlt : acc.best_match <
          ((p.2.matching_synapses pa).length : ℤ)
      · rw [if_pos hlt]
        obtain ⟨q, hq, hqM, hqf⟩ := ih hub2 hex2
          ⟨((p.2.matching_synapses pa).length : ℤ), some c, some (c, p.1)⟩
          (lt_of_le_of_ne (hub p (List.mem_cons_self p rest)) hpM)
        exact ⟨q, List.mem_cons_of_mem p hq, hqM, hqf⟩
      · rw [if_neg hlt]
        obtain ⟨q, hq, hqM, hqf⟩ := ih hub2 hex2 acc hacc
        exact ⟨q, List.mem_cons_of_mem p hq, hqM, hqf⟩

theorem bmStep_realized (segsOf : CellId → List Segment) (pa : List CellId)
    (acc : BMAcc) (c : CellId) (hge : -1 ≤ acc.best_match)
    (hlt : acc.best_match < cellScore segsOf pa c) :
    (bmStep segsOf pa acc c).best_match = cellScore segsOf pa c ∧
    (bmStep segsOf pa acc c).best_cell = some c ∧
    SegW segsOf pa c (bmStep segsOf pa acc c).best_seg := by
  unfold bmStep
  by_cases h1 : (segsOf c).isEmpty
  · rw [if_pos h1]
    have hsc : cellScore segsOf pa c = 0 := by unfold cellScore; rw [if_pos h1]
    rw [hsc] at hlt
    have h2 : acc.best_match = -1 := by omega
    rw [if_pos h2]
    refine ⟨hsc.symm, rfl, ?_⟩
    unfold SegW
    rw [if_pos h1]
  · rw [if_neg h1]
    have hnil : segsOf c ≠ [] := by
      intro hx
      rw [hx] at h1
      exact h1 rfl
    have hsc : cellScore segsOf pa c =
        ((segsOf c).map (segScore pa)).foldr max 0 := by
      unfold cellScore
      rw [if_neg h1]
    have hmemsnd : ∀ p ∈ (segsOf c).enum, p.2 ∈ segsOf c := by
      intro p hp
      have hg : (segsOf c)[p.1]? = some p.2 := by
        rcases p with ⟨i, x⟩
        exact List.mk_mem_enum_iff_getElem?.mp hp
      obtain ⟨hl, he⟩ := List.getElem?_eq_some.mp hg
      exact he ▸ List.getElem_mem hl
    have hub : ∀ p ∈ (segsOf c).enum, segScore pa p.2 ≤
        cellScore segsOf pa c := by
      intro p hp
      rw [hsc]
      exact le_foldr_max _ _ _ (List.mem_map.mpr ⟨p.2, hmemsnd p hp, rfl⟩)
    have hex : ∃ p ∈ (segsOf c).enum, segScore pa p.2 =
        cellScore segsOf pa c := by
      obtain ⟨x, hx, hxe⟩ := foldr_max_attained
        ((segsOf c).map (segScore pa)) (by simpa using hnil)
        (by
          intro x hx
          obtain ⟨seg, _, rfl⟩ := List.mem_map.mp hx
          exact Int.natCast_nonneg _)
      obtain ⟨seg, hseg, rfl⟩ := List.mem_map.mp hx
      obtain ⟨i, hi, hgi⟩ := List.mem_iff_getElem.mp hseg
      refine ⟨(i, seg), ?_, ?_⟩
      · exact List.mk_mem_enum_iff_getElem?.mpr
          (by rw [List.getElem?_eq_getElem hi, hgi])
      · rw [hsc]
        exact hxe
    obtain ⟨p, hp, hpM, hfold⟩ := seg_fold_realized c pa (segsOf c).enum
      (cellScore segsOf pa c) hub hex acc hlt
    rw [hfold]
    refine ⟨rfl, rfl, ?_⟩
    unfold SegW
    rw [if_neg h1]
    have hg : (segsOf c)[p.1]? = some p.2 := by
      rcases p with ⟨i, x⟩
      exact List.mk_mem_enum_iff_getElem?.mp hp
    obtain ⟨hplen, hpe⟩ := List.getElem?_eq_some.mp hg
    refine ⟨p.1, hplen, rfl, ?_⟩
    rw [List.getD_eq_getElem _ _ hplen, hpe]
    exact hpM

theorem bmStep_unchanged (segsOf : CellId → List Segment) (pa : List CellId)
    (acc : BMAcc) (c : CellId)
    (hge : cellScore segsOf pa c ≤ acc.best_match) :
    bmStep segsOf pa acc c = acc := by
  unfold bmStep
  by_cases h1 : (segsOf c).isEmpty
  · rw [if_pos h1]
    have hsc : cellScore segsOf pa c = 0 := by unfold cellScore; rw [if_pos h1]
    rw [hsc] at hge
    rw [if_neg (by omega)]
  · rw [if_neg h1]
    refine seg_fold_unchanged c pa _ acc ?_
    intro p hp
    refine le_trans ?_ hge
    have hg : (segsOf c)[p.1]? = some p.2 := by
      rcases p with ⟨i, x⟩
      exact List.mk_mem_enum_iff_getElem?.mp hp
    obtain ⟨hl, he⟩ := List.getElem?_eq_some.mp hg
    have hmem : p.2 ∈ segsOf c := he ▸ List.getElem_mem hl
    unfold cellScore
    rw [if_neg h1]
    exact le_foldr_max _ _ _ (List.mem_map.mpr ⟨p.2, hmem, rfl⟩)

theorem bm_fold_from (segsOf : CellId → List Segment) (pa : List CellId)
    (rest : List CellId) : ∀ (acc : BMAcc) (w0 : CellId),
    acc.best_match = cellScore segsOf pa w0 →
    acc.best_cell = some w0 →
    SegW segsOf pa w0 acc.best_seg →
    ∃ w, (rest.foldl (bmStep segsOf pa) acc).best_match =
        cellScore segsOf pa w ∧
      (rest.foldl (bmStep segsOf pa) acc).best_cell = some w ∧
      SegW segsOf pa w (rest.foldl (bmStep segsOf pa) acc).best_seg ∧
      cellScore segsOf pa w0 ≤ cellScore segsOf pa w ∧
      (∀ c ∈ rest, cellScore segsOf pa c ≤ cellScore segsOf pa w) ∧
      (w = w0 ∨ ∃ l1 l2, rest = l1 ++ w :: l2 ∧
        (∀ c ∈ l1, cellScore segsOf pa c < cellScore segsOf pa w) ∧
        cellScore segsOf pa w0 < cellScore segsOf pa w) := by
  induction rest with
  | nil =>
    intro acc w0 hm hc hs
    exact ⟨w0, by simpa using hm, by simpa using hc, by simpa using hs,
      le_refl _, by simp, Or.inl rfl⟩
  | cons c rest ih =>
    intro acc w0 hm hc hs
    rw [List.foldl_cons]
    by_cases hcmp : cellScore segsOf pa c ≤ acc.best_match
    · rw [bmStep_unchanged segsOf pa acc c hcmp]
      rw [hm] at hcmp
      obtain ⟨w, h1, h2, h3, h4, h5, h6⟩ := ih acc w0 hm hc hs
      refine ⟨w, h1, h2, h3, h4, ?_, ?_⟩
      · intro x hx
        rcases List.mem_cons.mp hx with rfl | hx
        · exact le_trans hcmp h4
        · exact h5 x hx
      · rcases h6 with rfl | ⟨l1, l2, hsplit, hstrict, hgt⟩
        · exact Or.inl rfl
        · refine Or.inr ⟨c :: l1, l2, by rw [hsplit, List.cons_append], ?_, hgt⟩
          intro x hx
          rcases List.mem_cons.mp hx with rfl | hx
          · exact lt_of_le_of_lt hcmp hgt
          · exact hstrict x hx
    · push_neg at hcmp
      have hge : -1 ≤ acc.best_match := by
        rw [hm]
        have := cellScore_nonneg segsOf pa w0
        omega
      obtain ⟨hm2, hc2, hs2⟩ := bmStep_realized segsOf pa acc c hge hcmp
      rw [hm] at hcmp
      obtain ⟨w, h1, h2, h3, h4, h5, h6⟩ :=
        ih (bmStep segsOf pa acc c) c hm2 hc2 hs2
      refine ⟨w, h1, h2, h3, le_trans (le_of_lt hcmp) h4, ?_, ?_⟩
      · intro x hx
        rcases List.mem_cons.mp hx with rfl | hx
        · exact h4
        · exact h5 x hx
      · rcases h6 with rfl | ⟨l1, l2, hsplit, hstrict, hgt⟩
        · exact Or.inr ⟨[], rest, rfl, by simp, hcmp⟩
        · refine Or.inr ⟨c :: l1, l2, by rw [hsplit, List.cons_append], ?_,
            lt_of_lt_of_le hcmp h4⟩
          intro x hx
          rcases List.mem_cons.mp hx with rfl | hx
          · exact hgt
          · exact hstrict x hx

/-- Full characterisation of `_best_matching_cell` on a non-empty cell
list: it returns the earliest cell attaining the maximal matching score
(segment-less cells scoring 0), together with a best-matching segment of
that cell (none when it has no segments). -/
theorem bm_char (segsOf : CellId → List Segment) (pa : List CellId)
    (cells : List CellId) (hne : cells ≠ []) :
    ∃ w, (best_matching_cell segsOf pa cells).best_match =
        cellScore segsOf pa w ∧
      (best_matching_cell segsOf pa cells).best_cell = some w ∧
      SegW segsOf pa w (best_matching_cell segsOf pa cells).best_seg ∧
      (∀ c ∈ cells, cellScore segsOf pa c ≤ cellScore segsOf pa w) ∧
      ∃ l1 l2, cells = l1 ++ w :: l2 ∧
        ∀ c ∈ l1, cellScore segsOf pa c < cellScore segsOf pa w := by
  rcases cells with _ | ⟨c, rest⟩
  · exact absurd rfl hne
  unfold best_matching_cell
  rw [List.foldl_cons]
  obtain ⟨hm0, hc0, hs0⟩ := bmStep_realized segsOf pa ⟨-1, none, none⟩ c
    (by norm_num) (by
      have := cellScore_nonneg segsOf pa c
      show (-1 : ℤ) < cellScore segsOf pa c
      omega)
  obtain ⟨w, h1, h2, h3, h4, h5, h6⟩ :=
    bm_fold_from segsOf pa rest _ c hm0 hc0 hs0
  refine ⟨w, h1, h2, h3, ?_, ?_⟩
  · intro x hx
    rcases List.mem_cons.mp hx with rfl | hx
    · exact h4
    · exact h5 x hx
  · rcases h6 with rfl | ⟨l1, l2, hsplit, hstrict, hgt⟩
    · exact ⟨[], rest, rfl, by simp⟩
    · refine ⟨c :: l1, l2, by rw [hsplit, List.cons_append], ?_⟩
      intro x hx
      rcases List.mem_cons.mp hx with rfl | hx
      · exact hgt
      · exact hstrict x hx

/-- C7 (amended).  In a bursting column (no cell predictive at `t-1`,
at least one cell), all cells become active; the winner is the
*earliest* cell in the column's cell order attaining the maximal
matching-synapse score against the `t-1` active cells (any permanence;
segment-less cells score 0) — a tie is resolved in favour of the
earliest such cell, not of a segment-less cell; and the learning set
gains a best-matching segment of the winner: a newly created empty
segment appended to the winner when it has none, otherwise an existing
segment of the winner attaining the winner's score. -/
theorem burst_column_winner (pa pp : List CellId) (st : ASResult)
    (col : TMColumn) (hburst : ∀ c ∈ col.cells, c ∉ pp)
    (hne : col.cells ≠ []) :
    ∃ st' w,
      processColumn pa pp st col = .ok st' ∧
      st'.active = col.cells.foldl insertUniq st.active ∧
      (∀ c ∈ col.cells, c ∈ st'.active) ∧
      st'.winners = insertUniq st.winners w ∧
      (∀ c ∈ col.cells, cellScore (fun c => st.segs.getD c []) pa c ≤
        cellScore (fun c => st.segs.getD c []) pa w) ∧
      (∃ l1 l2, col.cells = l1 ++ w :: l2 ∧
        ∀ c ∈ l1, cellScore (fun c => st.segs.getD c []) pa c <
          cellScore (fun c => st.segs.getD c []) pa w) ∧
      (if (st.segs.getD w []).isEmpty then
        st'.segs = st.segs.set w (st.segs.getD w [] ++
          [{ synapses := [], sequence_segment := false }]) ∧
        st'.learning = insertUniq st.learning (w, (st.segs.getD w []).length)
      else
        st'.segs = st.segs ∧
        ∃ j, j < (st.segs.getD w []).length ∧
          st'.learning = insertUniq st.learning (w, j) ∧
          segScore pa ((st.segs.getD w []).getD j default) =
            cellScore (fun c => st.segs.getD c []) pa w) := by
  have hfilter : col.cells.filter (fun c => c ∈ pp) = [] :=
    List.filter_eq_nil_iff.mpr (fun c hc => by simpa using hburst c hc)
  obtain ⟨w, h1, h2, h3, h4, l1, l2, hsplit, hstrict⟩ :=
    bm_char (fun c => st.segs.getD c []) pa col.cells hne
  unfold processColumn
  rw [if_neg (by rw [hfilter]; simp)]
  unfold SegW at h3
  by_cases hw : (st.segs.getD w []).isEmpty
  · rw [if_pos (show ((fun c => st.segs.getD c []) w).isEmpty = true
      from hw)] at h3
    rw [h3, h2]
    refine ⟨_, w, rfl, rfl, ?_, rfl, h4, ⟨l1, l2, hsplit, hstrict⟩, ?_⟩
    · intro c hc
      show c ∈ col.cells.foldl insertUniq st.active
      rw [mem_foldl_insertUniq]
      exact Or.inr hc
    · rw [if_pos hw]
      exact ⟨rfl, rfl⟩
  · rw [if_neg (show ¬ ((fun c => st.segs.getD c []) w).isEmpty = true
      from hw)] at h3
    obtain ⟨j, hj, hjseg, hjscore⟩ := h3
    rw [hjseg, h2]
    refine ⟨_, w, rfl, rfl, ?_, rfl, h4, ⟨l1, l2, hsplit, hstrict⟩, ?_⟩
    · intro c hc
      show c ∈ col.cells.foldl insertUniq st.active
      rw [mem_foldl_insertUniq]
      exact Or.inr hc
    · rw [if_neg hw]
      exact ⟨rfl, j, hj, rfl, hjscore⟩

/-- Concrete segment arena for the C7 tie scenario: cell 0 owns one
segment (a single synapse onto cell 9), cell 1 owns none. -/
def tieSegs : List (List Segment) :=
  [[{ synapses := [{ source_cell := 9, permanence := 21/100 }]
      sequence_segment := false }], []]

/-- Counterexample to C7 as stated.  Bursting column with cells
`[0, 1]`, no previously active cells: cell 0 has a segment with 0
matching synapses, cell 1 is segment-less — an exact tie at score 0.
The claim says the tie is resolved in favour of the segment-less cell
(cell 1); the code makes cell 0, which has a segment, the winner. -/
theorem burst_tie_prefers_first_cell :
    (tm_step id [⟨[0, 1]⟩] 2 tieSegs [] [] [.col ⟨[0, 1]⟩]).map
      StepResult.winnersT = .ok [0] ∧
    (tieSegs.getD 1 []).isEmpty = true ∧
    (tieSegs.getD 0 []).isEmpty = false ∧
    cellScore (fun c => tieSegs.getD c []) [] 0 = 0 ∧
    cellScore (fun c => tieSegs.getD c []) [] 1 = 0 :=
  ⟨rfl, rfl, rfl, rfl, rfl⟩

/-- Witness for `burst_column_winner` at the concrete tie scenario. -/
theorem burst_column_winner_witness :
    ∃ st' w, processColumn [] []
      { segs := tieSegs, active := [], winners := [], learning := [] }
      ⟨[0, 1]⟩ = .ok st' ∧ st'.winners = insertUniq [] w := by
  obtain ⟨st', w, hok, _ha, _hm, hwin, _⟩ :=
    burst_column_winner [] []
      { segs := tieSegs, active := [], winners := [], learning := [] }
      ⟨[0, 1]⟩ (by decide) (by decide)
  exact ⟨st', w, hok, hwin⟩

end PsuCapstone
